import Mathlib

set_option maxRecDepth 8192

/-!
Shallow embedding of the LZW decoder module (`src/lzw.py`): the packed 12-bit
codeword reader `Binary12BitInput`, the symbol table `CodewordTable`, and the
decoder `LZW` with its `expand` generator.  Python strings are modelled as
`List Char`, byte sources as `List Nat`, a raised-and-uncaught exception as an
`Option`/`Except` error value.
-/

/-- State of `Binary12BitInput` between calls: the two-byte sliding window
`current_bytes`, the position of the next unread byte of the source, the
1-indexed counter `n`, and the `_finished` flag. -/
structure B12State where
  b0 : Nat
  b1 : Nat
  pos : Nat
  n : Nat
  finished : Bool
deriving Repr, DecidableEq

/-- `Binary12BitInput.__init__`: the window is loaded from the first two bytes
of the source (absent bytes are never later read) and the counter starts at 1. -/
def b12Init (src : List Nat) : B12State :=
  { b0 := src.getD 0 0, b1 := src.getD 1 0, pos := 2, n := 1, finished := false }

/-- One call of `Binary12BitInput.__next__` over source `src`, with
`n12 = total_bits // 12` and `tail16 = has_16bit_element`.  `none` models the
`StopIteration` raised when `_finished` is already set; `some (cw, st)` models
returning codeword `cw` with updated state `st`.  Note the final branch returns
the initial value 0 of `c12bit_codeword` after setting `_finished`. -/
def b12Next (src : List Nat) (n12 : Nat) (tail16 : Bool) (st : B12State) :
    Option (Nat × B12State) :=
  if st.finished then none
  else if st.n < n12 then
    if st.n % 2 = 1 then
      some ((st.b0 <<< 4) ||| ((st.b1 &&& 0xF0) >>> 4),
        { st with b0 := st.b1, b1 := src.getD st.pos 0, pos := st.pos + 1, n := st.n + 1 })
    else
      some (((st.b0 &&& 0x0F) <<< 8) ||| st.b1,
        { st with
          b0 := src.getD st.pos 0
          b1 := src.getD (st.pos + 1) 0
          pos := st.pos + 2
          n := st.n + 1 })
  else if tail16 then
    some ((st.b0 <<< 8) ||| st.b1, { st with finished := true })
  else
    some (0, { st with finished := true })

/-- Iterate `__next__` until `StopIteration`, collecting every returned
codeword; `fuel` bounds the number of calls. -/
def b12Run (src : List Nat) (n12 : Nat) (tail16 : Bool) : Nat → B12State → List Nat
  | 0, _ => []
  | fuel + 1, st =>
    match b12Next src n12 tail16 st with
    | none => []
    | some (cw, st') => cw :: b12Run src n12 tail16 fuel st'

/-- The full codeword sequence `Binary12BitInput` produces over a byte source:
`total_bits = 8 * length`, `n_12bits = total_bits // 12`,
`has_16bit_element = total_bits % 12 != 0 and total_bits >= 16`. -/
def binary12BitCodewords (src : List Nat) : List Nat :=
  let nbits := src.length * 8
  let n12 := nbits / 12
  let tail16 := decide (nbits % 12 ≠ 0 ∧ 16 ≤ nbits)
  b12Run src n12 tail16 (n12 + 2) (b12Init src)

/-- Modelled from the spec (and mirrored by `test_binary_input`): the documented
packing loop.  With the 1-indexed counter `n` below `total_bits // 12`, odd `n`
yields `(b0 << 4) | (b1 >> 4)` and advances one byte, even `n` yields
`((b0 & 0x0F) << 8) | b1` and advances two bytes.  Returns the codewords and
the final byte index, used for the tail. -/
def specPackLoop (src : List Nat) (n12 : Nat) : Nat → Nat → Nat → List Nat × Nat
  | 0, _, i => ([], i)
  | fuel + 1, n, i =>
    if n < n12 then
      if n % 2 = 1 then
        let r := specPackLoop src n12 fuel (n + 1) (i + 1)
        (((src.getD i 0 <<< 4) ||| (src.getD (i + 1) 0 >>> 4)) :: r.1, r.2)
      else
        let r := specPackLoop src n12 fuel (n + 1) (i + 2)
        ((((src.getD i 0 &&& 0x0F) <<< 8) ||| src.getD (i + 1) 0) :: r.1, r.2)
    else ([], i)

/-- Modelled from the spec: the documented packed-codeword sequence — the loop
above followed by the conditional big-endian 16-bit tail, present exactly when
`total_bits % 12 != 0` and `total_bits >= 16`. -/
def specPackedCodewords (src : List Nat) : List Nat :=
  let nbits := src.length * 8
  let n12 := nbits / 12
  let r := specPackLoop src n12 (n12 + 1) 1 0
  if nbits % 12 ≠ 0 ∧ 16 ≤ nbits then
    r.1 ++ [(src.getD r.2 0 <<< 8) ||| src.getD (r.2 + 1) 0]
  else r.1

/-- `CodewordTable._reset`: entries 0–255 map each index to the one-character
string `chr(index)`. -/
def initTable : List (List Char) :=
  (List.range 256).map (fun x => [Char.ofNat x])

/-- The symbol table `CodewordTable`: its `_size` bound and its `_table`
entries. -/
structure CodewordTable where
  size : Nat
  table : List (List Char)
deriving Repr, DecidableEq

/-- `CodewordTable.__init__`: store the size and reset the table. -/
def CodewordTable.init (size : Nat) : CodewordTable :=
  { size := size, table := initTable }

/-- `CodewordTable.put`: when the current length has reached `_size`, `_reset`
first; then append the entry. -/
def CodewordTable.put (t : CodewordTable) (s : List Char) : CodewordTable :=
  { size := t.size,
    table := (if t.size ≤ t.table.length then initTable else t.table) ++ [s] }

/-- `CodewordTable.get`: `none` models the `IndexError` raised when the
codeword is at or beyond the current table length. -/
def CodewordTable.get (t : CodewordTable) (cw : Nat) : Option (List Char) :=
  t.table.get? cw

/-- Error conditions of `LZW.expand`, named after the spec's taxonomy:
`emptyInput` is the `StopIteration`/`RuntimeError` escaping from `next` on an
empty codeword iterable, `malformedFirst` the uncaught `IndexError` from the
first lookup, `innerIndex` an uncaught `IndexError` from `string[0]` inside the
loop's handler. -/
inductive LZWError where
  | emptyInput
  | malformedFirst
  | innerIndex
deriving Repr, DecidableEq

/-- The `except IndexError` branch of the decode loop: the new table entry —
also the new `string`, also the fragment yielded this round — is
`string + string[0]`.  `none` models `string[0]` itself raising an uncaught
`IndexError` on an empty `string`. -/
def lzwSelfRef (t : CodewordTable) (s : List Char) : Option (CodewordTable × List Char) :=
  match s with
  | [] => none
  | c :: cs => some (t.put ((c :: cs) ++ [c]), (c :: cs) ++ [c])

/-- One iteration of the `for cw1 in self._codewords` body: inside the `try`,
look up `cw1` and take `ch1[0]`; an `IndexError` from either (missing entry,
or empty `ch1`) is caught and routed to the self-referential branch.  Returns
the updated table and the new `string`, which is the fragment yielded. -/
def lzwStep (t : CodewordTable) (s : List Char) (cw1 : Nat) :
    Option (CodewordTable × List Char) :=
  match t.get cw1 with
  | some (c :: cs) => some (t.put (s ++ [c]), c :: cs)
  | some [] => lzwSelfRef t s
  | none => lzwSelfRef t s

/-- The loop of `LZW.expand` over the codewords after the first, collecting the
yielded fragments. -/
def expandLoop (t : CodewordTable) (s : List Char) (cws : List Nat) :
    Except LZWError (List (List Char)) :=
  match cws with
  | [] => Except.ok []
  | cw1 :: rest =>
    match lzwStep t s cw1 with
    | none => Except.error LZWError.innerIndex
    | some (t', s') =>
      match expandLoop t' s' rest with
      | Except.ok out => Except.ok (s' :: out)
      | Except.error e => Except.error e

/-- The `LZW` object: `__init__` merely stores the codeword iterable and
`table_size` (default 4096) and performs no validation. -/
structure LZW where
  codewords : List Nat
  tableSize : Nat
deriving Repr, DecidableEq

/-- `LZW.__init__` with the `table_size` argument explicit. It cannot fail. -/
def LZW.init (codewords : List Nat) (tableSize : Nat) : LZW :=
  { codewords := codewords, tableSize := tableSize }

/-- `LZW.expand`: build a fresh table, read the first codeword (`StopIteration`
escaping when there is none), seed `string` from its lookup (`IndexError`
escaping when it misses), yield it, then run the loop.  `Except.ok` holds the
list of all yielded fragments in order. -/
def LZW.expand (l : LZW) : Except LZWError (List (List Char)) :=
  let table := CodewordTable.init l.tableSize
  match l.codewords with
  | [] => Except.error LZWError.emptyInput
  | cw0 :: rest =>
    match table.get cw0 with
    | none => Except.error LZWError.malformedFirst
    | some s =>
      match expandLoop table s rest with
      | Except.ok out => Except.ok (s :: out)
      | Except.error e => Except.error e

/-! Helper lemmas about the symbol table and the decode loop. -/

/-- All entries of a table are non-empty strings. -/
def TableOK (t : CodewordTable) : Prop := ∀ e ∈ t.table, e ≠ []

theorem initTable_ok : ∀ e ∈ initTable, e ≠ [] := by
  intro e he
  simp only [initTable, List.mem_map] at he
  obtain ⟨x, _, rfl⟩ := he
  simp

theorem initTable_length : initTable.length = 256 := by
  simp [initTable]

theorem tableOK_init (size : Nat) : TableOK (CodewordTable.init size) :=
  fun e he => initTable_ok e he

theorem put_size (t : CodewordTable) (s : List Char) : (t.put s).size = t.size := rfl

theorem tableOK_put {t : CodewordTable} {s : List Char} (ht : TableOK t) (hs : s ≠ []) :
    TableOK (t.put s) := by
  intro e he
  simp only [CodewordTable.put, List.mem_append, List.mem_singleton] at he
  rcases he with he | rfl
  · by_cases h : t.size ≤ t.table.length
    · rw [if_pos h] at he
      exact initTable_ok e he
    · rw [if_neg h] at he
      exact ht e he
  · exact hs

theorem get_ok {t : CodewordTable} {cw : Nat} {ch : List Char} (ht : TableOK t)
    (h : t.get cw = some ch) : ch ≠ [] :=
  ht ch (List.get?_mem h)

theorem init_get_lt {size cw0 : Nat} (h : cw0 < 256) :
    (CodewordTable.init size).get cw0 = some [Char.ofNat cw0] := by
  rw [CodewordTable.get]
  show initTable.get? cw0 = some [Char.ofNat cw0]
  rw [initTable, List.get?_map, List.get?_range h]
  rfl

theorem init_get_ge {size cw0 : Nat} (h : 256 ≤ cw0) :
    (CodewordTable.init size).get cw0 = none := by
  rw [CodewordTable.get, List.get?_eq_none]
  show initTable.length ≤ cw0
  rw [initTable_length]
  exact h

theorem lzwSelfRef_eq (t : CodewordTable) (c : Char) (cs : List Char) :
    lzwSelfRef t (c :: cs) = some (t.put ((c :: cs) ++ [c]), (c :: cs) ++ [c]) := rfl

theorem lzwStep_miss {t : CodewordTable} {s : List Char} {cw : Nat}
    (h : t.get cw = none) : lzwStep t s cw = lzwSelfRef t s := by
  simp [lzwStep, h]

theorem lzwStep_total {t : CodewordTable} {s : List Char} (cw : Nat)
    (ht : TableOK t) (hs : s ≠ []) :
    ∃ t' s', lzwStep t s cw = some (t', s') ∧ TableOK t' ∧ s' ≠ [] := by
  obtain ⟨c, cs, rfl⟩ := List.exists_cons_of_ne_nil hs
  cases hg : t.get cw with
  | none =>
    refine ⟨t.put ((c :: cs) ++ [c]), (c :: cs) ++ [c], ?_,
      tableOK_put ht (by simp), by simp⟩
    rw [lzwStep_miss hg, lzwSelfRef_eq]
  | some ch =>
    obtain ⟨d, ds, rfl⟩ := List.exists_cons_of_ne_nil (get_ok ht hg)
    refine ⟨t.put ((c :: cs) ++ [d]), d :: ds, ?_,
      tableOK_put ht (by simp), by simp⟩
    simp [lzwStep, hg]

theorem expandLoop_total (cws : List Nat) :
    ∀ (t : CodewordTable) (s : List Char), TableOK t → s ≠ [] →
      ∃ out, expandLoop t s cws = Except.ok out ∧ out.length = cws.length ∧
        ∀ f ∈ out, f ≠ [] := by
  induction cws with
  | nil =>
    intro t s _ _
    exact ⟨[], rfl, rfl, by simp⟩
  | cons cw1 rest ih =>
    intro t s ht hs
    obtain ⟨t', s', hstep, ht', hs'⟩ := lzwStep_total cw1 ht hs
    obtain ⟨out, hout, hlen, hne⟩ := ih t' s' ht' hs'
    refine ⟨s' :: out, ?_, by simp [hlen], ?_⟩
    · simp [expandLoop, hstep, hout]
    · intro f hf
      rcases List.mem_cons.mp hf with rfl | hf
      · exact hs'
      · exact hne f hf

theorem expand_ok (tsize cw0 : Nat) (rest : List Nat) (h : cw0 < 256) :
    ∃ out, (LZW.init (cw0 :: rest) tsize).expand = Except.ok out ∧
      out.length = rest.length + 1 ∧ ∀ f ∈ out, f ≠ [] := by
  obtain ⟨out, hout, hlen, hne⟩ :=
    expandLoop_total rest (CodewordTable.init tsize) [Char.ofNat cw0]
      (tableOK_init tsize) (by simp)
  refine ⟨[Char.ofNat cw0] :: out, ?_, by simp [hlen], ?_⟩
  · simp [LZW.expand, LZW.init, init_get_lt h, hout]
  · intro f hf
    rcases List.mem_cons.mp hf with rfl | hf
    · simp
    · exact hne f hf

/-! Helper lemmas about the codeword reader. -/

/-- The sliding-window bytes stay below 256. -/
def B12Bytes (st : B12State) : Prop := st.b0 < 256 ∧ st.b1 < 256

theorem getD_lt {src : List Nat} (hsrc : ∀ b ∈ src, b < 256) (i : Nat) :
    src.getD i 0 < 256 := by
  rw [List.getD_eq_getD_get?]
  cases h : src.get? i with
  | none => simp
  | some a => simpa using hsrc a (List.get?_mem h)

theorem b12Next_bound {src : List Nat} {n12 : Nat} {tail16 : Bool} {st : B12State}
    {cw : Nat} {st' : B12State} (hsrc : ∀ b ∈ src, b < 256) (hst : B12Bytes st)
    (h : b12Next src n12 tail16 st = some (cw, st')) :
    B12Bytes st' ∧ cw < 65536 ∧ (st'.finished = false → cw < 4096) := by
  obtain ⟨hb0, hb1⟩ := hst
  rw [b12Next] at h
  by_cases hf : st.finished
  · rw [if_pos hf] at h
    exact absurd h (by simp)
  rw [if_neg hf] at h
  by_cases hlt : st.n < n12
  · rw [if_pos hlt] at h
    by_cases hodd : st.n % 2 = 1
    · rw [if_pos hodd] at h
      simp only [Option.some.injEq, Prod.mk.injEq] at h
      obtain ⟨rfl, rfl⟩ := h
      have h1 : st.b0 <<< 4 < 2 ^ 12 := by
        rw [Nat.shiftLeft_eq]
        norm_num
        omega
      have h2 : (st.b1 &&& 0xF0) >>> 4 < 2 ^ 12 := by
        have hle : st.b1 &&& 0xF0 ≤ 0xF0 := Nat.and_le_right
        have hd : (st.b1 &&& 0xF0) >>> 4 ≤ 0xF0 >>> 4 := by
          rw [Nat.shiftRight_eq_div_pow, Nat.shiftRight_eq_div_pow]
          exact Nat.div_le_div_right hle
        norm_num at hd ⊢
        omega
      have hcw : st.b0 <<< 4 ||| (st.b1 &&& 0xF0) >>> 4 < 4096 := by
        have := Nat.or_lt_two_pow h1 h2
        norm_num at this
        exact this
      exact ⟨⟨hb1, getD_lt hsrc _⟩, by omega, fun _ => hcw⟩
    · rw [if_neg hodd] at h
      simp only [Option.some.injEq, Prod.mk.injEq] at h
      obtain ⟨rfl, rfl⟩ := h
      have h1 : (st.b0 &&& 0x0F) <<< 8 < 2 ^ 12 := by
        have hle : st.b0 &&& 0x0F ≤ 0x0F := Nat.and_le_right
        rw [Nat.shiftLeft_eq]
        norm_num
        omega
      have h2 : st.b1 < 2 ^ 12 := by norm_num; omega
      have hcw : (st.b0 &&& 0x0F) <<< 8 ||| st.b1 < 4096 := by
        have := Nat.or_lt_two_pow h1 h2
        norm_num at this
        exact this
      exact ⟨⟨getD_lt hsrc _, getD_lt hsrc _⟩, by omega, fun _ => hcw⟩
  rw [if_neg hlt] at h
  by_cases ht16 : tail16 = true
  · rw [if_pos ht16] at h
    simp only [Option.some.injEq, Prod.mk.injEq] at h
    obtain ⟨rfl, rfl⟩ := h
    have h1 : st.b0 <<< 8 < 2 ^ 16 := by
      rw [Nat.shiftLeft_eq]
      norm_num
      omega
    have h2 : st.b1 < 2 ^ 16 := by norm_num; omega
    have hcw : st.b0 <<< 8 ||| st.b1 < 65536 := by
      have := Nat.or_lt_two_pow h1 h2
      norm_num at this
      exact this
    exact ⟨⟨hb0, hb1⟩, hcw, by simp⟩
  · rw [if_neg ht16] at h
    simp only [Option.some.injEq, Prod.mk.injEq] at h
    obtain ⟨rfl, rfl⟩ := h
    exact ⟨⟨hb0, hb1⟩, by omega, fun _ => by omega⟩

theorem b12Run_finished {src : List Nat} {n12 : Nat} {tail16 : Bool} (fuel : Nat)
    {st : B12State} (h : st.finished = true) : b12Run src n12 tail16 fuel st = [] := by
  cases fuel with
  | zero => rfl
  | succ f => simp [b12Run, b12Next, h]

theorem b12Run_bound {src : List Nat} {n12 : Nat} {tail16 : Bool}
    (hsrc : ∀ b ∈ src, b < 256) (fuel : Nat) :
    ∀ st : B12State, B12Bytes st →
      (∀ cw ∈ b12Run src n12 tail16 fuel st, cw < 65536) ∧
      (∀ cw ∈ (b12Run src n12 tail16 fuel st).dropLast, cw < 4096) := by
  induction fuel with
  | zero =>
    intro st _
    constructor <;> intro cw hcw <;> simp [b12Run] at hcw
  | succ f ih =>
    intro st hst
    cases hnext : b12Next src n12 tail16 st with
    | none =>
      constructor <;> intro cw hcw <;> simp [b12Run, hnext] at hcw
    | some p =>
      obtain ⟨cw0, st'⟩ := p
      obtain ⟨hst', h16, h12⟩ := b12Next_bound hsrc hst hnext
      obtain ⟨ih16, ih12⟩ := ih st' hst'
      have hrun : b12Run src n12 tail16 (f + 1) st = cw0 :: b12Run src n12 tail16 f st' := by
        simp [b12Run, hnext]
      rw [hrun]
      constructor
      · intro cw hcw
        rcases List.mem_cons.mp hcw with rfl | hcw
        · exact h16
        · exact ih16 cw hcw
      · intro cw hcw
        cases hrest : b12Run src n12 tail16 f st' with
        | nil =>
          rw [hrest] at hcw
          simp at hcw
        | cons y ys =>
          rw [hrest] at hcw
          have hfin : st'.finished = false := by
            by_contra hc
            simp only [Bool.not_eq_false] at hc
            rw [b12Run_finished f hc] at hrest
            exact List.noConfusion hrest
          rw [← hrest] at hcw
          have hdrop : (cw0 :: b12Run src n12 tail16 f st').dropLast =
              cw0 :: (b12Run src n12 tail16 f st').dropLast := by
            rw [hrest]
            rfl
          rw [hdrop] at hcw
          rcases List.mem_cons.mp hcw with rfl | hcw
          · exact h12 hfin
          · exact ih12 cw hcw

theorem put_length_le {t : CodewordTable} (e : List Char) (hsize : 257 ≤ t.size)
    (hlen : t.table.length ≤ t.size) : (t.put e).table.length ≤ t.size := by
  rw [CodewordTable.put]
  by_cases h : t.size ≤ t.table.length
  · rw [if_pos h]
    simp [initTable_length]
    omega
  · rw [if_neg h]
    simp
    omega

theorem foldl_put_invariant (entries : List (List Char)) :
    ∀ t : CodewordTable, 257 ≤ t.size → t.table.length ≤ t.size →
      (entries.foldl CodewordTable.put t).size = t.size ∧
      (entries.foldl CodewordTable.put t).table.length ≤ t.size := by
  induction entries with
  | nil =>
    intro t _ hl
    exact ⟨rfl, hl⟩
  | cons e es ih =>
    intro t hs hl
    have hstep := put_length_le e hs hl
    have hsize : (t.put e).size = t.size := put_size t e
    obtain ⟨h1, h2⟩ := ih (t.put e) (by rw [hsize]; exact hs) (by rw [hsize]; exact hstep)
    rw [List.foldl_cons]
    rw [hsize] at h1 h2
    exact ⟨h1, h2⟩

/-! The claims. -/

/-- Claim C1, evaluated at the failing inputs: for a source with no 16-bit
padded tail the reader does not end without producing a value — the final
branch of `__next__` sets `_finished` but returns the initial codeword value 0,
raising `StopIteration` only on the following call.  An empty source, a 1-byte
source and a 3-byte source each produce a spurious trailing codeword 0 instead
of zero further codewords. -/
theorem c1_no_tail_spurious_zero :
    binary12BitCodewords [] = [0] ∧
    binary12BitCodewords [0x12] = [0] ∧
    binary12BitCodewords [0x41, 0x42, 0x43] = [0x414, 0] :=
  ⟨by decide, by decide, by decide⟩

/-- Claim C2, evaluated per byte-length category: on a tail-bearing source
(length not a multiple of 3, at least 2 bytes) the reader agrees with the
documented packing, but on a no-tail source (length a multiple of 3, or below
2 bytes) the reader emits an extra trailing codeword 0 that the documented
packing does not produce, so the full sequences differ. -/
theorem c2_packing_comparison :
    (specPackedCodewords [0x41, 0x42, 0x43, 0x44] = [0x414, 0x4243] ∧
      binary12BitCodewords [0x41, 0x42, 0x43, 0x44] = [0x414, 0x4243]) ∧
    (specPackedCodewords [0x41, 0x42, 0x43] = [0x414] ∧
      binary12BitCodewords [0x41, 0x42, 0x43] = [0x414, 0]) ∧
    (specPackedCodewords [] = [] ∧ binary12BitCodewords [] = [0]) :=
  ⟨⟨by decide, by decide⟩, ⟨by decide, by decide⟩, ⟨by decide, by decide⟩⟩

/-- Claim C3 counterexample: over the 2-byte source `FF FF` the reader produces
the single 16-bit padded tail codeword 65535, which does not lie below the
default table size 4096. -/
theorem c3_counterexample :
    binary12BitCodewords [0xFF, 0xFF] = [0xFFFF] ∧ ¬(0xFFFF < 4096) :=
  ⟨by decide, by decide⟩

/-- Claim C3 as amended: over any byte source (entries below 256) every
codeword the reader produces fits in 16 bits, and every codeword other than the
final one fits in 12 bits; only the final codeword (the 16-bit padded tail) may
lie at or above 4096. -/
theorem c3_codeword_range (src : List Nat) (hsrc : ∀ b ∈ src, b < 256) :
    (∀ cw ∈ binary12BitCodewords src, cw < 65536) ∧
    (∀ cw ∈ (binary12BitCodewords src).dropLast, cw < 4096) :=
  b12Run_bound hsrc _ (b12Init src) ⟨getD_lt hsrc 0, getD_lt hsrc 1⟩

/-- Witness for the amended claim C3 at a concrete 2-byte source. -/
theorem c3_codeword_range_witness :
    (∀ b ∈ [0xAB, 0xCD], b < 256) ∧
    ((∀ cw ∈ binary12BitCodewords [0xAB, 0xCD], cw < 65536) ∧
      (∀ cw ∈ (binary12BitCodewords [0xAB, 0xCD]).dropLast, cw < 4096)) :=
  ⟨by decide, c3_codeword_range [0xAB, 0xCD] (by decide)⟩

/-- Claim C4 counterexample: constructing the decoder with `table_size = 0`
(below 256) does not fail — `__init__` performs no validation — and decoding
even consumes the codewords and produces output. -/
theorem c4_counterexample : (LZW.init [0x41] 0).expand = Except.ok [['A']] := by rfl

/-- Claim C4 as amended: construction with `table_size` below 256 is accepted
without any check (the constructor only stores its arguments), and decoding
proceeds normally whenever the first codeword is below 256. -/
theorem c4_no_size_validation (tsize cw0 : Nat) (rest : List Nat)
    (hts : tsize < 256) (h : cw0 < 256) :
    LZW.init (cw0 :: rest) tsize = { codewords := cw0 :: rest, tableSize := tsize } ∧
    ∃ out, (LZW.init (cw0 :: rest) tsize).expand = Except.ok out := by
  refine ⟨rfl, ?_⟩
  obtain ⟨out, hout, -, -⟩ := expand_ok tsize cw0 rest h
  exact ⟨out, hout⟩

/-- Witness for the amended claim C4 at `table_size = 0`. -/
theorem c4_no_size_validation_witness :
    0 < 256 ∧ 0x41 < 256 ∧
    (LZW.init [0x41] 0 = { codewords := [0x41], tableSize := 0 } ∧
      ∃ out, (LZW.init [0x41] 0).expand = Except.ok out) :=
  ⟨by decide, by decide, c4_no_size_validation 0 0x41 [] (by decide) (by decide)⟩

/-- Claim C5 counterexample: with `table_size = 256` (which is ≥ 256) a single
`put` on the fresh table resets and then appends, yielding 257 entries — the
table size exceeds `table_size`. -/
theorem c5_counterexample :
    ((CodewordTable.init 256).put ['A']).table.length = 257 ∧ ¬(257 ≤ 256) :=
  ⟨by decide, by decide⟩

/-- Claim C5 as amended: for every `table_size ≥ 257` the table length never
exceeds `table_size` across any sequence of `put` operations from the initial
table, and a `put` on a table whose length has reached `table_size` first
resets to the initial 256-entry identity state and then appends the entry.
(At `table_size = 256` exactly, a single `put` instead reaches 257 entries.) -/
theorem c5_capacity_invariant (size : Nat) (hsize : 257 ≤ size)
    (entries : List (List Char)) (t : CodewordTable) (e : List Char)
    (hcap : t.size ≤ t.table.length) :
    (entries.foldl CodewordTable.put (CodewordTable.init size)).table.length ≤ size ∧
    t.put e = { size := t.size, table := initTable ++ [e] } := by
  constructor
  · exact (foldl_put_invariant entries (CodewordTable.init size) hsize
      (by show initTable.length ≤ size; rw [initTable_length]; omega)).2
  · rw [CodewordTable.put, if_pos hcap]

/-- Witness for the amended claim C5 at `table_size = 257` and a table at
capacity. -/
theorem c5_capacity_invariant_witness :
    257 ≤ 257 ∧
    (CodewordTable.mk 256 initTable).size ≤ (CodewordTable.mk 256 initTable).table.length ∧
    (([[ 'B' ]].foldl CodewordTable.put (CodewordTable.init 257)).table.length ≤ 257 ∧
      (CodewordTable.mk 256 initTable).put ['C'] =
        { size := 256, table := initTable ++ [['C']] }) :=
  ⟨by decide, by decide,
    c5_capacity_invariant 257 (by decide) [['B']] (CodewordTable.mk 256 initTable) ['C']
      (by decide)⟩

/-- Claim C6: when the first codeword is below 256, decoding never fails — in
particular a table lookup miss on any later codeword is caught inside the loop
and handled by the self-referential branch, whose new table entry and emitted
string are the previous string extended with its own first character. -/
theorem c6_miss_handled (tsize cw0 : Nat) (rest : List Nat) (h : cw0 < 256)
    (t : CodewordTable) (c : Char) (cs : List Char) (cw : Nat)
    (hmiss : t.get cw = none) :
    (∃ out, (LZW.init (cw0 :: rest) tsize).expand = Except.ok out) ∧
    lzwStep t (c :: cs) cw = some (t.put ((c :: cs) ++ [c]), (c :: cs) ++ [c]) := by
  constructor
  · obtain ⟨out, hout, -, -⟩ := expand_ok tsize cw0 rest h
    exact ⟨out, hout⟩
  · rw [lzwStep_miss hmiss, lzwSelfRef_eq]

/-- Witness for claim C6: the sequence `[0x41, 0x100]` exercises the miss
branch and decodes without failure. -/
theorem c6_miss_handled_witness :
    0x41 < 256 ∧ (CodewordTable.init 4096).get 0x100 = none ∧
    ((∃ out, (LZW.init [0x41, 0x100] 4096).expand = Except.ok out) ∧
      lzwStep (CodewordTable.init 4096) ['A'] 0x100 =
        some ((CodewordTable.init 4096).put (['A'] ++ ['A']), ['A'] ++ ['A'])) :=
  ⟨by decide, by decide,
    c6_miss_handled 4096 0x41 [0x100] (by decide) (CodewordTable.init 4096) 'A' [] 0x100
      (by decide)⟩

/-- Claim C7: for a non-empty codeword sequence whose first codeword is below
256, decoding succeeds and emits exactly one string fragment per input
codeword. -/
theorem c7_output_length (tsize cw0 : Nat) (rest : List Nat) (h : cw0 < 256) :
    ∃ out, (LZW.init (cw0 :: rest) tsize).expand = Except.ok out ∧
      out.length = (cw0 :: rest).length := by
  obtain ⟨out, hout, hlen, -⟩ := expand_ok tsize cw0 rest h
  exact ⟨out, hout, by simp [hlen]⟩

/-- Witness for claim C7 at a concrete three-codeword sequence. -/
theorem c7_output_length_witness :
    0x41 < 256 ∧
    ∃ out, (LZW.init [0x41, 0x42, 0x100] 4096).expand = Except.ok out ∧
      out.length = [0x41, 0x42, 0x100].length :=
  ⟨by decide, c7_output_length 4096 0x41 [0x42, 0x100] (by decide)⟩

/-- Claim C8: a first codeword at or above 256 misses the fresh 256-entry table,
so decoding fails with the malformed-input condition (the uncaught `IndexError`
of the first lookup) before any fragment is produced. -/
theorem c8_malformed_first (tsize cw0 : Nat) (rest : List Nat) (h : 256 ≤ cw0) :
    (LZW.init (cw0 :: rest) tsize).expand = Except.error LZWError.malformedFirst := by
  simp [LZW.expand, LZW.init, init_get_ge h]

/-- Witness for claim C8 at first codeword 0x100. -/
theorem c8_malformed_first_witness :
    256 ≤ 0x100 ∧
    (LZW.init [0x100, 0x41] 4096).expand = Except.error LZWError.malformedFirst :=
  ⟨by decide, c8_malformed_first 4096 0x100 [0x41] (by decide)⟩

/-- Claim C9: decoding an empty codeword sequence fails with the empty-input
condition (the exception escaping from `next` on the empty iterable) and
produces no output fragments. -/
theorem c9_empty_input (tsize : Nat) :
    (LZW.init [] tsize).expand = Except.error LZWError.emptyInput := rfl

/-- Claim C10: when the first codeword is below 256 every fragment the decoder
emits is non-empty, and one decode step from any table with non-empty entries
and a non-empty carried string succeeds and preserves both facts — hence the
first-character accesses `ch1[0]` and `string[0]` never fail. -/
theorem c10_nonempty_strings (tsize cw0 : Nat) (rest : List Nat) (h : cw0 < 256)
    (t : CodewordTable) (s : List Char) (cw : Nat) (ht : TableOK t) (hs : s ≠ []) :
    (∃ out, (LZW.init (cw0 :: rest) tsize).expand = Except.ok out ∧ ∀ f ∈ out, f ≠ []) ∧
    (∃ t' s', lzwStep t s cw = some (t', s') ∧ TableOK t' ∧ s' ≠ []) := by
  constructor
  · obtain ⟨out, hout, -, hne⟩ := expand_ok tsize cw0 rest h
    exact ⟨out, hout, hne⟩
  · exact lzwStep_total cw ht hs

/-- Witness for claim C10 at a concrete sequence that exercises the miss
branch. -/
theorem c10_nonempty_strings_witness :
    0x41 < 256 ∧ TableOK (CodewordTable.init 4096) ∧ (['A'] : List Char) ≠ [] ∧
    ((∃ out, (LZW.init [0x41, 0x100] 4096).expand = Except.ok out ∧ ∀ f ∈ out, f ≠ []) ∧
      (∃ t' s', lzwStep (CodewordTable.init 4096) ['A'] 0x100 = some (t', s') ∧
        TableOK t' ∧ s' ≠ [])) :=
  ⟨by decide, tableOK_init 4096, by decide,
    c10_nonempty_strings 4096 0x41 [0x100] (by decide) (CodewordTable.init 4096) ['A'] 0x100
      (tableOK_init 4096) (by decide)⟩
